import Mathlib

/-!
Verification of the binary-search engine of the Ada/SPARK best-practices
corpus against its specification.

Two implementations are embedded:

* the C function `binary_search` (and its deliberately overflow-prone
  sibling `binary_search_naive`) from the C source file: 0-based indices,
  return value is the found index or `-1`;
* the Ada function `Search` from `binary_search.adb`: the array carries an
  arbitrary first index (`Index_Type` starts at 1), return value is the
  found index or `0`.

The while-loops are embedded as fuel-indexed structural recursions; the
top-level entry points supply `length + 1` units of fuel, which the
termination theorem shows is always enough.  An array access out of
bounds, or fuel running out, yields `none`; the safety theorems show that
under the documented preconditions `none` is unreachable.
-/

/-- C array read `arr[i]` with an `int` index: `none` models an
out-of-bounds access (undefined behavior in the source). -/
def cIndex (arr : List Int) (i : Int) : Option Int :=
  if 0 ≤ i then arr[i.toNat]? else none

/-- The midpoint computation of the C and Ada sources:
`mid = low + (high - low) / 2`. -/
def cMid (low high : Int) : Int :=
  low + (high - low) / 2

/-- The loop of the C `binary_search`, fuel-indexed.  Mirrors the source:
while `left <= right`, read `arr[mid]` at `mid = left + (right-left)/2`,
return `mid` on a hit, otherwise shrink the window; on exhaustion of the
window return `-1`. -/
def bsLoopF : Nat → List Int → Int → Int → Int → Option Int
  | 0, _, _, _, _ => none
  | fuel + 1, arr, target, left, right =>
    if left ≤ right then
      (cIndex arr (cMid left right)).bind fun v =>
        if v = target then some (cMid left right)
        else if v < target then bsLoopF fuel arr target (cMid left right + 1) right
        else bsLoopF fuel arr target left (cMid left right - 1)
    else some (-1)

/-- The C `binary_search(arr, size, target)`: `left` starts at `0`,
`right` at `size - 1`. -/
def binary_search (arr : List Int) (target : Int) : Option Int :=
  bsLoopF (arr.length + 1) arr target 0 ((arr.length : Int) - 1)

/-- The C `is_sorted(arr, size)`: adjacent pairs are non-decreasing. -/
def is_sorted : List Int → Bool
  | [] => true
  | [_] => true
  | a :: b :: rest => a ≤ b && is_sorted (b :: rest)

/-- `INT_MAX` of the 32-bit `int` the C sources assume. -/
def INT_MAX : Int := 2147483647

/-- Two's-complement wrap-around of a mathematical integer into the
32-bit signed range, the machine-arithmetic model for `int`. -/
def wrap32 (x : Int) : Int :=
  (x + 2147483648) % 4294967296 - 2147483648

/-- `left + (right - left) / 2` computed step by step in wrap-around
32-bit arithmetic with C (truncating) division. -/
def cMidWrap (low high : Int) : Int :=
  wrap32 (low + (wrap32 (high - low)).tdiv 2)

/-- `(left + right) / 2` of `binary_search_naive`, computed in
wrap-around 32-bit arithmetic with C (truncating) division. -/
def cMidNaiveWrap (low high : Int) : Int :=
  (wrap32 (low + high)).tdiv 2

/-- The loop of `binary_search_naive`, identical to `bsLoopF` except for
the midpoint formula, which is evaluated in the machine model since its
addition can overflow. -/
def bsNaiveLoopF : Nat → List Int → Int → Int → Int → Option Int
  | 0, _, _, _, _ => none
  | fuel + 1, arr, target, left, right =>
    if left ≤ right then
      (cIndex arr (cMidNaiveWrap left right)).bind fun v =>
        if v = target then some (cMidNaiveWrap left right)
        else if v < target then bsNaiveLoopF fuel arr target (cMidNaiveWrap left right + 1) right
        else bsNaiveLoopF fuel arr target left (cMidNaiveWrap left right - 1)
    else some (-1)

/-- The C `binary_search_naive(arr, size, target)`. -/
def binary_search_naive (arr : List Int) (target : Int) : Option Int :=
  bsNaiveLoopF (arr.length + 1) arr target 0 ((arr.length : Int) - 1)

lemma is_sorted_chain : ∀ l : List Int, is_sorted l = true ↔ List.Chain' (· ≤ ·) l
  | [] => by simp [is_sorted]
  | [a] => by simp [is_sorted]
  | a :: b :: l => by
    rw [is_sorted, List.chain'_cons, Bool.and_eq_true, decide_eq_true_eq,
      is_sorted_chain (b :: l)]

lemma sorted_get_le {S : List Int} (hs : is_sorted S = true) (i j : Fin S.length)
    (hij : (i : Nat) ≤ (j : Nat)) : S.get i ≤ S.get j := by
  rcases Nat.lt_or_ge (i : Nat) (j : Nat) with h | h
  · exact List.pairwise_iff_get.mp
      (List.chain'_iff_pairwise.mp ((is_sorted_chain S).mp hs)) i j h
  · have : i = j := Fin.ext (Nat.le_antisymm hij h)
    exact le_of_eq (congrArg S.get this)

lemma cIndex_eq_get (S : List Int) (i : Int) (h0 : 0 ≤ i) (h : i < (S.length : Int)) :
    cIndex S i = some (S.get ⟨i.toNat, by omega⟩) := by
  unfold cIndex
  rw [if_pos h0]
  have hlt : i.toNat < S.length := by omega
  simp [List.getElem?_eq_getElem, hlt]

lemma cIndex_some {S : List Int} {i : Int} {v : Int} (h : cIndex S i = some v) :
    0 ≤ i ∧ ∃ hlt : i.toNat < S.length, v = S.get ⟨i.toNat, hlt⟩ := by
  unfold cIndex at h
  by_cases h0 : 0 ≤ i
  · rw [if_pos h0] at h
    have hlt : i.toNat < S.length := by
      by_contra hge
      rw [List.getElem?_eq_none (by omega)] at h
      exact Option.noConfusion h
    refine ⟨h0, hlt, ?_⟩
    rw [List.getElem?_eq_getElem hlt] at h
    simpa using (Option.some.inj h).symm
  · rw [if_neg h0] at h
    exact Option.noConfusion h

/-- The loop invariant of the search: every index strictly left of `low`
holds a value strictly below `target`, every index strictly right of
`high` holds a value strictly above `target`. -/
def SearchInv (S : List Int) (target : Int) (low high : Int) : Prop :=
  (∀ i : Fin S.length, ((i : Nat) : Int) < low → S.get i < target) ∧
  (∀ i : Fin S.length, high < ((i : Nat) : Int) → target < S.get i)

lemma SearchInv_init (S : List Int) (target : Int) : SearchInv S target 0 ((S.length : Int) - 1) := by
  constructor <;> intro i hi <;> { have := i.isLt; exact absurd hi (by omega) }

lemma SearchInv_exit {S : List Int} {target low high : Int} (hInv : SearchInv S target low high)
    (h : high < low) : target ∉ S := by
  intro hmem
  obtain ⟨n, hn⟩ := List.mem_iff_get.mp hmem
  rcases Int.lt_or_le ((n : Nat) : Int) low with h1 | h2
  · exact absurd hn (ne_of_lt (hInv.1 n h1))
  · exact absurd hn (ne_of_gt (hInv.2 n (by omega)))

lemma SearchInv_step {S : List Int} {target low high m v : Int}
    (hs : is_sorted S = true) (hInv : SearchInv S target low high)
    (hv : cIndex S m = some v) :
    (v < target → SearchInv S target (m + 1) high) ∧
    (target < v → SearchInv S target low (m - 1)) := by
  obtain ⟨hm0, hlt, rfl⟩ := cIndex_some hv
  constructor
  · intro hvt
    refine ⟨fun i hi => ?_, hInv.2⟩
    rcases Int.lt_or_le ((i : Nat) : Int) low with h1 | h2
    · exact hInv.1 i h1
    · have : (i : Nat) ≤ m.toNat := by omega
      exact lt_of_le_of_lt (sorted_get_le hs i ⟨m.toNat, hlt⟩ this) hvt
  · intro hvt
    refine ⟨hInv.1, fun i hi => ?_⟩
    rcases Int.lt_or_le high ((i : Nat) : Int) with h1 | h2
    · exact hInv.2 i h1
    · have : m.toNat ≤ (i : Nat) := by omega
      exact lt_of_lt_of_le hvt (sorted_get_le hs ⟨m.toNat, hlt⟩ i this)

lemma bsLoopF_total (S : List Int) (target : Int) :
    ∀ (fuel : Nat) (left right : Int), 0 ≤ left → right ≤ (S.length : Int) - 1 →
    (right + 1 - left).toNat < fuel →
    ∃ r, bsLoopF fuel S target left right = some r ∧
      (r = -1 ∨ (0 ≤ r ∧ r < (S.length : Int) ∧ cIndex S r = some target)) := by
  intro fuel
  induction fuel with
  | zero => intro left right h0 hr hf; omega
  | succ fuel ih =>
    intro left right h0 hr hf
    by_cases hlr : left ≤ right
    · have hm1 : left ≤ cMid left right := by unfold cMid; omega
      have hm2 : cMid left right ≤ right := by unfold cMid; omega
      have hacc := cIndex_eq_get S (cMid left right) (by omega) (by omega)
      rw [bsLoopF, if_pos hlr, hacc, Option.some_bind]
      set w := S.get ⟨(cMid left right).toNat, by omega⟩ with hw
      by_cases heq : w = target
      · rw [if_pos heq]
        exact ⟨cMid left right, rfl, Or.inr ⟨by omega, by omega,
          by rw [hacc]; exact congrArg some heq⟩⟩
      · rw [if_neg heq]
        by_cases hltv : w < target
        · rw [if_pos hltv]
          exact ih (cMid left right + 1) right (by omega) hr (by omega)
        · rw [if_neg hltv]
          exact ih left (cMid left right - 1) h0 (by omega) (by omega)
    · rw [bsLoopF, if_neg hlr]
      exact ⟨-1, rfl, Or.inl rfl⟩

lemma bsLoopF_sound (S : List Int) (target : Int) (hs : is_sorted S = true) :
    ∀ (fuel : Nat) (left right : Int), 0 ≤ left → right ≤ (S.length : Int) - 1 →
    (right + 1 - left).toNat < fuel →
    SearchInv S target left right →
    ∃ r, bsLoopF fuel S target left right = some r ∧
      ((∃ j : Fin S.length, r = ((j : Nat) : Int) ∧ S.get j = target) ∨
       (r = -1 ∧ target ∉ S)) := by
  intro fuel
  induction fuel with
  | zero => intro left right h0 hr hf _; omega
  | succ fuel ih =>
    intro left right h0 hr hf hInv
    by_cases hlr : left ≤ right
    · have hm1 : left ≤ cMid left right := by unfold cMid; omega
      have hm2 : cMid left right ≤ right := by unfold cMid; omega
      have hacc := cIndex_eq_get S (cMid left right) (by omega) (by omega)
      rw [bsLoopF, if_pos hlr, hacc, Option.some_bind]
      set w := S.get ⟨(cMid left right).toNat, by omega⟩ with hw
      by_cases heq : w = target
      · rw [if_pos heq]
        refine ⟨cMid left right, rfl, Or.inl ⟨⟨(cMid left right).toNat, by omega⟩,
          (Int.toNat_of_nonneg (by omega)).symm, ?_⟩⟩
        rw [← hw, heq]
      · rw [if_neg heq]
        have hstep := SearchInv_step hs hInv (v := w) (by rw [hacc])
        by_cases hltv : w < target
        · rw [if_pos hltv]
          exact ih (cMid left right + 1) right (by omega) hr (by omega) (hstep.1 hltv)
        · rw [if_neg hltv]
          have hgt : target < w := lt_of_le_of_ne (not_lt.mp hltv) (Ne.symm heq)
          exact ih left (cMid left right - 1) h0 (by omega) (by omega) (hstep.2 hgt)
    · rw [bsLoopF, if_neg hlr]
      exact ⟨-1, rfl, Or.inr ⟨rfl, SearchInv_exit hInv (by omega)⟩⟩

/-- An Ada `Integer_Array`: values `elems` stored at indices
`first, first + 1, ...` (`Index_Type` constrains `first` to `1 .. 10000`,
carried as a hypothesis where needed). -/
structure AdaArray where
  first : Nat
  elems : List Int

/-- `Arr'Last`. -/
def AdaArray.lastIdx (a : AdaArray) : Nat := a.first + a.elems.length - 1

/-- Ada array read `Arr (I)`: `none` models `Constraint_Error`. -/
def AdaArray.get (a : AdaArray) (i : Nat) : Option Int :=
  if a.first ≤ i then a.elems[i - a.first]? else none

/-- The loop of the Ada `Search`, fuel-indexed.  Mirrors the source:
while `Left <= Right`, read `Arr (Mid)` at `Mid = Left + (Right - Left) / 2`,
return `Mid` on a hit, otherwise shrink the window; afterwards return `0`.
`Right` is `Natural`, so subtraction is truncated at `0` (Nat subtraction),
exactly as `Mid - 1` behaves when `Mid = 1`. -/
def SearchLoopF : Nat → AdaArray → Int → Nat → Nat → Option Nat
  | 0, _, _, _, _ => none
  | fuel + 1, a, target, left, right =>
    if left ≤ right then
      (a.get (left + (right - left) / 2)).bind fun v =>
        if v = target then some (left + (right - left) / 2)
        else if v < target then SearchLoopF fuel a target (left + (right - left) / 2 + 1) right
        else SearchLoopF fuel a target left (left + (right - left) / 2 - 1)
    else some 0

/-- The Ada `Search (Arr, Target)`: `Left` starts at `Arr'First`,
`Right` at `Arr'Last`. -/
def Search (a : AdaArray) (target : Int) : Option Nat :=
  SearchLoopF (a.elems.length + 1) a target a.first a.lastIdx

lemma adaGet_eq (a : AdaArray) (i : Nat) (h1 : a.first ≤ i)
    (h2 : i - a.first < a.elems.length) :
    a.get i = some (a.elems.get ⟨i - a.first, h2⟩) := by
  unfold AdaArray.get
  rw [if_pos h1]
  simp [List.getElem?_eq_getElem, h2]

lemma SearchLoopF_range (a : AdaArray) (target : Int) (hfst : 1 ≤ a.first) :
    ∀ (fuel left right : Nat), a.first ≤ left → right ≤ a.lastIdx →
    right + 1 - left < fuel →
    ∃ r, SearchLoopF fuel a target left right = some r ∧
      (r = 0 ∨ (a.first ≤ r ∧ r ≤ a.lastIdx)) := by
  intro fuel
  induction fuel with
  | zero => intro left right hl hr hf; omega
  | succ fuel ih =>
    intro left right hl hr hf
    by_cases hlr : left ≤ right
    · set m := left + (right - left) / 2 with hm
      have hm1 : left ≤ m := by omega
      have hm2 : m ≤ right := by omega
      have hlen : 1 ≤ a.elems.length := by
        by_contra hc
        unfold AdaArray.lastIdx at hr
        omega
      have hmr : m - a.first < a.elems.length := by
        unfold AdaArray.lastIdx at hr
        omega
      rw [SearchLoopF, if_pos hlr, ← hm, adaGet_eq a m (by omega) hmr, Option.some_bind]
      set w := a.elems.get ⟨m - a.first, hmr⟩ with hw
      by_cases heq : w = target
      · rw [if_pos heq]
        exact ⟨m, rfl, Or.inr ⟨by omega, by omega⟩⟩
      · rw [if_neg heq]
        by_cases hltv : w < target
        · rw [if_pos hltv]
          exact ih (m + 1) right (by omega) hr (by omega)
        · rw [if_neg hltv]
          exact ih left (m - 1) hl (by omega) (by omega)
    · rw [SearchLoopF, if_neg hlr]
      exact ⟨0, rfl, Or.inl rfl⟩

lemma wrap32_eq {x : Int} (h1 : -2147483648 ≤ x) (h2 : x ≤ 2147483647) :
    wrap32 x = x := by
  unfold wrap32
  have := Int.emod_eq_of_lt (a := x + 2147483648) (b := 4294967296) (by omega) (by omega)
  omega

lemma cMidWrap_eq {low high : Int} (h0 : 0 ≤ low) (h1 : low ≤ high)
    (h2 : high ≤ INT_MAX) : cMidWrap low high = cMid low high := by
  unfold INT_MAX at h2
  unfold cMidWrap cMid
  have hinner : wrap32 (high - low) = high - low := wrap32_eq (by omega) (by omega)
  rw [hinner, Int.tdiv_eq_ediv (by omega) (by omega)]
  exact wrap32_eq (by omega) (by omega)

lemma cMidNaiveWrap_eq {low high : Int} (h0 : 0 ≤ low) (h1 : low ≤ high)
    (h2 : low + high ≤ INT_MAX) : cMidNaiveWrap low high = cMid low high := by
  unfold INT_MAX at h2
  unfold cMidNaiveWrap cMid
  rw [wrap32_eq (by omega) (by omega), Int.tdiv_eq_ediv (by omega) (by omega)]
  omega

/-- Trace predicate on the (exact-arithmetic) run of the search loop:
at every iteration actually executed, the naive midpoint sum
`left + right` stays within `INT_MAX`. -/
def sumOkF : Nat → List Int → Int → Int → Int → Bool
  | 0, _, _, _, _ => false
  | fuel + 1, arr, target, left, right =>
    if left ≤ right then
      decide (left + right ≤ INT_MAX) &&
      (cIndex arr (cMid left right)).elim true fun v =>
        if v = target then true
        else if v < target then sumOkF fuel arr target (cMid left right + 1) right
        else sumOkF fuel arr target left (cMid left right - 1)
    else true

lemma loops_agree (S : List Int) (target : Int) :
    ∀ (fuel : Nat) (left right : Int), 0 ≤ left →
    sumOkF fuel S target left right = true →
    bsNaiveLoopF fuel S target left right = bsLoopF fuel S target left right := by
  intro fuel
  induction fuel with
  | zero => intro left right h0 hok; rfl
  | succ fuel ih =>
    intro left right h0 hok
    rw [sumOkF] at hok
    by_cases hlr : left ≤ right
    · rw [if_pos hlr, Bool.and_eq_true, decide_eq_true_eq] at hok
      obtain ⟨hsum, hrest⟩ := hok
      have hmid : cMidNaiveWrap left right = cMid left right :=
        cMidNaiveWrap_eq h0 hlr hsum
      rw [bsNaiveLoopF, bsLoopF, if_pos hlr, if_pos hlr, hmid]
      cases hacc : cIndex S (cMid left right) with
      | none => rfl
      | some v =>
        rw [hacc] at hrest
        simp only [Option.elim] at hrest
        simp only [Option.some_bind]
        by_cases heq : v = target
        · rw [if_pos heq, if_pos heq]
        · rw [if_neg heq, if_neg heq]
          rw [if_neg heq] at hrest
          by_cases hltv : v < target
          · rw [if_pos hltv, if_pos hltv]
            rw [if_pos hltv] at hrest
            exact ih (cMid left right + 1) right (by unfold cMid; omega) hrest
          · rw [if_neg hltv, if_neg hltv]
            rw [if_neg hltv] at hrest
            exact ih left (cMid left right - 1) h0 hrest
    · rw [bsNaiveLoopF, bsLoopF, if_neg hlr, if_neg hlr]

lemma sumOkF_of_bounds (S : List Int) (target : Int) :
    ∀ (fuel : Nat) (left right : Int), 0 ≤ left → right < 1073741824 →
    (right + 1 - left).toNat < fuel →
    sumOkF fuel S target left right = true := by
  intro fuel
  induction fuel with
  | zero => intro left right h0 hr hf; omega
  | succ fuel ih =>
    intro left right h0 hr hf
    rw [sumOkF]
    by_cases hlr : left ≤ right
    · rw [if_pos hlr, Bool.and_eq_true, decide_eq_true_eq]
      refine ⟨by unfold INT_MAX; omega, ?_⟩
      have hm1 : left ≤ cMid left right := by unfold cMid; omega
      have hm2 : cMid left right ≤ right := by unfold cMid; omega
      cases hacc : cIndex S (cMid left right) with
      | none => rfl
      | some v =>
        simp only [Option.elim]
        by_cases heq : v = target
        · rw [if_pos heq]
        · rw [if_neg heq]
          by_cases hltv : v < target
          · rw [if_pos hltv]
            exact ih (cMid left right + 1) right (by omega) hr (by omega)
          · rw [if_neg hltv]
            exact ih left (cMid left right - 1) h0 (by omega) (by omega)
    · rw [if_neg hlr]

/-- The Ada `Is_Sorted (Arr)`: length at most 1, or else every adjacent
pair of elements is non-decreasing. -/
def Is_Sorted (a : AdaArray) : Prop :=
  a.elems.length ≤ 1 ∨
  ∀ i : Nat, a.first ≤ i → i < a.lastIdx →
    ∀ x y, a.get i = some x → a.get (i + 1) = some y → x ≤ y

/-- C1: for every sorted sequence `S` and target, the search returns a
value (it terminates without out-of-bounds access), and the value is
either a valid index holding the target, or the not-found sentinel `-1`;
the sentinel is returned exactly when the target is absent from `S`. -/
theorem search_total_correct (S : List Int) (target : Int) (hs : is_sorted S = true) :
    ∃ r, binary_search S target = some r ∧
      ((∃ j : Fin S.length, r = ((j : Nat) : Int) ∧ S.get j = target) ∨
       (r = -1 ∧ target ∉ S)) ∧
      (r = -1 ↔ target ∉ S) := by
  unfold binary_search
  obtain ⟨r, hr, hcase⟩ := bsLoopF_sound S target hs (S.length + 1) 0 ((S.length : Int) - 1)
    le_rfl le_rfl (by omega) (SearchInv_init S target)
  refine ⟨r, hr, hcase, ?_, ?_⟩
  · intro h1
    rcases hcase with ⟨j, hj, _⟩ | ⟨_, habs⟩
    · omega
    · exact habs
  · intro habs
    rcases hcase with ⟨j, _, hjt⟩ | ⟨h1, _⟩
    · exact absurd (hjt ▸ List.get_mem S j.1 j.2) habs
    · exact h1

theorem search_total_correct_witness :
    is_sorted [1, 3, 5, 7, 9, 11, 13, 15, 17, 19] = true ∧
    ∃ r, binary_search [1, 3, 5, 7, 9, 11, 13, 15, 17, 19] 7 = some r ∧
      ((∃ j : Fin ([1, 3, 5, 7, 9, 11, 13, 15, 17, 19] : List Int).length,
          r = ((j : Nat) : Int) ∧ [1, 3, 5, 7, 9, 11, 13, 15, 17, 19].get j = 7) ∨
       (r = -1 ∧ (7 : Int) ∉ ([1, 3, 5, 7, 9, 11, 13, 15, 17, 19] : List Int))) ∧
      (r = -1 ↔ (7 : Int) ∉ ([1, 3, 5, 7, 9, 11, 13, 15, 17, 19] : List Int)) :=
  ⟨by decide, search_total_correct [1, 3, 5, 7, 9, 11, 13, 15, 17, 19] 7 (by decide)⟩

/-- C2: the loop invariant — every index strictly below `low` holds a
value strictly below the target and every index strictly above `high`
holds a value strictly above it — holds vacuously at loop entry
(`low = 0`, `high = length - 1`), is preserved by both window-shrinking
branches of the loop body, and at loop exit (`high < low`) implies the
target is absent from the whole sequence. -/
theorem search_loop_invariant (S : List Int) (target : Int) (hs : is_sorted S = true) :
    SearchInv S target 0 ((S.length : Int) - 1) ∧
    (∀ low high v : Int, SearchInv S target low high →
      cIndex S (cMid low high) = some v →
      (v < target → SearchInv S target (cMid low high + 1) high) ∧
      (target < v → SearchInv S target low (cMid low high - 1))) ∧
    (∀ low high : Int, high < low → SearchInv S target low high → target ∉ S) :=
  ⟨SearchInv_init S target,
   fun _ _ _ hInv hv => SearchInv_step hs hInv hv,
   fun _ _ hlh hInv => SearchInv_exit hInv hlh⟩

theorem search_loop_invariant_witness :
    is_sorted [1, 3] = true ∧ SearchInv [1, 3] 3 0 ((([1, 3] : List Int).length : Int) - 1) :=
  ⟨by decide, (search_loop_invariant [1, 3] 3 (by decide)).1⟩

/-- C3: for any legal window (`0 ≤ low ≤ high ≤ INT_MAX`, including the
degenerate `low = high`), the engine's midpoint computed in wrap-around
32-bit machine arithmetic equals the exact mathematical midpoint
`low + (high - low) / 2` and stays inside `[low, high]` (no overflow);
by contrast the naive sum `low + high` can exceed `INT_MAX` on legal
windows, where the wrapped naive formula no longer yields the midpoint. -/
theorem midpoint_no_overflow (low high : Int) (h0 : 0 ≤ low) (h1 : low ≤ high)
    (h2 : high ≤ INT_MAX) :
    (cMidWrap low high = cMid low high ∧ low ≤ cMid low high ∧ cMid low high ≤ high) ∧
    (∃ l h, 0 ≤ l ∧ l ≤ h ∧ h ≤ INT_MAX ∧ INT_MAX < l + h ∧
      cMidNaiveWrap l h ≠ cMid l h) :=
  ⟨⟨cMidWrap_eq h0 h1 h2, by unfold cMid; omega, by unfold cMid; omega⟩,
   ⟨1073741824, 1073741824, by decide, by decide, by decide, by decide, by decide⟩⟩

theorem midpoint_no_overflow_witness :
    ((0 : Int) ≤ 1073741824 ∧ (1073741824 : Int) ≤ 2147483647 ∧ (2147483647 : Int) ≤ INT_MAX) ∧
    ((cMidWrap 1073741824 2147483647 = cMid 1073741824 2147483647 ∧
      (1073741824 : Int) ≤ cMid 1073741824 2147483647 ∧
      cMid 1073741824 2147483647 ≤ 2147483647) ∧
     (∃ l h, 0 ≤ l ∧ l ≤ h ∧ h ≤ INT_MAX ∧ INT_MAX < l + h ∧
       cMidNaiveWrap l h ≠ cMid l h)) :=
  ⟨⟨by decide, by decide, by decide⟩,
   midpoint_no_overflow 1073741824 2147483647 (by decide) (by decide) (by decide)⟩

/-- C4: both window-shrinking branches strictly decrease the window
width `high - low` (the loop variant), and every call to the search
returns a result — the fuel `length + 1` supplied by `binary_search`
always suffices. -/
theorem search_terminates (S : List Int) (target : Int) (low high : Int) (hlh : low ≤ high) :
    (high - (cMid low high + 1) < high - low ∧ (cMid low high - 1) - low < high - low) ∧
    ∃ r, binary_search S target = some r := by
  refine ⟨⟨by unfold cMid; omega, by unfold cMid; omega⟩, ?_⟩
  unfold binary_search
  obtain ⟨r, hr, _⟩ := bsLoopF_total S target (S.length + 1) 0 ((S.length : Int) - 1)
    le_rfl le_rfl (by omega)
  exact ⟨r, hr⟩

theorem search_terminates_witness :
    (0 : Int) ≤ 9 ∧
    ((9 - (cMid 0 9 + 1) < 9 - 0 ∧ (cMid 0 9 - 1) - 0 < 9 - 0) ∧
     ∃ r, binary_search [1, 3, 5, 7, 9, 11, 13, 15, 17, 19] 10 = some r) :=
  ⟨by decide, search_terminates [1, 3, 5, 7, 9, 11, 13, 15, 17, 19] 10 0 9 (by decide)⟩

/-- C5: searching the empty sequence is a total, legal call and yields
the not-found sentinel, for any target: `-1` in the C version, `0` in
the Ada version (whose body also handles the empty window). -/
theorem search_empty (target : Int) :
    binary_search [] target = some (-1) ∧
    Search ⟨1, []⟩ target = some 0 :=
  ⟨rfl, rfl⟩

/-- C6: the four concrete scenarios on `S = [1,3,5,7,9,11,13,15,17,19]`:
target `7` is found at 0-based index `3`, target `1` at index `0`, and
targets `20` and `-5` are reported not found. -/
theorem search_concrete_scenarios :
    binary_search [1, 3, 5, 7, 9, 11, 13, 15, 17, 19] 7 = some 3 ∧
    binary_search [1, 3, 5, 7, 9, 11, 13, 15, 17, 19] 20 = some (-1) ∧
    binary_search [1, 3, 5, 7, 9, 11, 13, 15, 17, 19] 1 = some 0 ∧
    binary_search [1, 3, 5, 7, 9, 11, 13, 15, 17, 19] (-5) = some (-1) :=
  ⟨by decide, by decide, by decide, by decide⟩

/-- C7: every element access of the loop is in bounds: for any window
with `0 ≤ low ≤ high ≤ length - 1` the midpoint lies inside the window
and the (option-valued) array read at it succeeds, and consequently the
whole search never takes the out-of-range branch. -/
theorem search_accesses_in_bounds (S : List Int) (target : Int) (low high : Int)
    (_hs : is_sorted S = true) (h0 : 0 ≤ low) (hlh : low ≤ high)
    (hh : high ≤ (S.length : Int) - 1) :
    (low ≤ cMid low high ∧ cMid low high ≤ high) ∧
    (cIndex S (cMid low high)).isSome = true ∧
    (binary_search S target).isSome = true := by
  refine ⟨⟨by unfold cMid; omega, by unfold cMid; omega⟩, ?_, ?_⟩
  · rw [cIndex_eq_get S (cMid low high) (by unfold cMid; omega) (by unfold cMid; omega)]
    rfl
  · unfold binary_search
    obtain ⟨r, hr, _⟩ := bsLoopF_total S target (S.length + 1) 0 ((S.length : Int) - 1)
      le_rfl le_rfl (by omega)
    rw [hr]
    rfl

theorem search_accesses_in_bounds_witness :
    (is_sorted [2, 4, 6] = true ∧ (0 : Int) ≤ 0 ∧ (0 : Int) ≤ 2 ∧
      (2 : Int) ≤ (([2, 4, 6] : List Int).length : Int) - 1) ∧
    ((0 ≤ cMid 0 2 ∧ cMid 0 2 ≤ 2) ∧
     (cIndex [2, 4, 6] (cMid 0 2)).isSome = true ∧
     (binary_search [2, 4, 6] 5).isSome = true) :=
  ⟨⟨by decide, by decide, by decide, by decide⟩,
   search_accesses_in_bounds [2, 4, 6] 5 0 2 (by decide) (by decide) (by decide) (by decide)⟩

/-- C8: round-trip presence — searching for a value taken from a sorted
sequence finds some index holding that value (not necessarily the same
index when duplicates exist); in particular searching `[2,2,2,2]` for
`2` yields `Found(i)` with `i < 4`. -/
theorem search_roundtrip (S : List Int) (hs : is_sorted S = true) (i : Fin S.length) :
    (∃ j : Fin S.length, binary_search S (S.get i) = some ((j : Nat) : Int) ∧
      S.get j = S.get i) ∧
    (∃ k : Nat, k < 4 ∧ binary_search [2, 2, 2, 2] 2 = some (k : Int)) := by
  refine ⟨?_, ⟨1, by omega, by decide⟩⟩
  obtain ⟨r, hr, hcase⟩ := bsLoopF_sound S (S.get i) hs (S.length + 1) 0 ((S.length : Int) - 1)
    le_rfl le_rfl (by omega) (SearchInv_init S (S.get i))
  rcases hcase with ⟨j, hj, hjt⟩ | ⟨_, habs⟩
  · refine ⟨j, ?_, hjt⟩
    unfold binary_search
    rw [hr, hj]
  · exact absurd (List.get_mem S i.1 i.2) habs

theorem search_roundtrip_witness :
    is_sorted [1, 3, 5, 7, 9, 11, 13, 15, 17, 19] = true ∧
    (∃ j : Fin ([1, 3, 5, 7, 9, 11, 13, 15, 17, 19] : List Int).length,
      binary_search [1, 3, 5, 7, 9, 11, 13, 15, 17, 19]
        ([1, 3, 5, 7, 9, 11, 13, 15, 17, 19].get ⟨3, by decide⟩) = some ((j : Nat) : Int) ∧
      [1, 3, 5, 7, 9, 11, 13, 15, 17, 19].get j =
        [1, 3, 5, 7, 9, 11, 13, 15, 17, 19].get ⟨3, by decide⟩) :=
  ⟨by decide, (search_roundtrip [1, 3, 5, 7, 9, 11, 13, 15, 17, 19] (by decide) ⟨3, by decide⟩).1⟩

/-- C9: on any run of the search in which the naive midpoint sum
`left + right` stays within `INT_MAX` at every executed iteration,
`binary_search_naive` returns exactly the same result as
`binary_search`; and that side condition automatically holds for every
array of length at most `2^30`. -/
theorem naive_search_agrees (S : List Int) (target : Int) (_hs : is_sorted S = true) :
    (sumOkF (S.length + 1) S target 0 ((S.length : Int) - 1) = true →
      binary_search_naive S target = binary_search S target) ∧
    ((S.length : Int) ≤ 1073741824 →
      sumOkF (S.length + 1) S target 0 ((S.length : Int) - 1) = true) := by
  constructor
  · intro hok
    unfold binary_search_naive binary_search
    exact loops_agree S target (S.length + 1) 0 ((S.length : Int) - 1) le_rfl hok
  · intro hlen
    exact sumOkF_of_bounds S target (S.length + 1) 0 ((S.length : Int) - 1)
      le_rfl (by omega) (by omega)

theorem naive_search_agrees_witness :
    is_sorted [1, 3, 5] = true ∧
    ((sumOkF (([1, 3, 5] : List Int).length + 1) [1, 3, 5] 3 0
        ((([1, 3, 5] : List Int).length : Int) - 1) = true →
      binary_search_naive [1, 3, 5] 3 = binary_search [1, 3, 5] 3) ∧
     ((([1, 3, 5] : List Int).length : Int) ≤ 1073741824 →
      sumOkF (([1, 3, 5] : List Int).length + 1) [1, 3, 5] 3 0
        ((([1, 3, 5] : List Int).length : Int) - 1) = true)) :=
  ⟨by decide, naive_search_agrees [1, 3, 5] 3 (by decide)⟩

/-- C10: the not-found sentinel cannot collide with a found result.
Under the Ada precondition (`Arr'First ≥ 1`, length ≥ 1, sorted), the
Ada `Search` returns a value that is either `0` or an index in
`Arr'Range`, `0` itself is never in `Arr'Range`, and membership in
`Arr'Range` is equivalent to being a non-`0` result; symmetrically the C
`binary_search` on a sorted array returns either `-1` or an index in
`[0, size)`, and the range test is equivalent to being a non-`-1`
result. -/
theorem sentinel_distinguishes (a : AdaArray) (S : List Int) (t u : Int)
    (hfst : 1 ≤ a.first) (hlen : 1 ≤ a.elems.length) (_hsa : Is_Sorted a)
    (_hs : is_sorted S = true) :
    (∃ r, Search a t = some r ∧ (r = 0 ∨ (a.first ≤ r ∧ r ≤ a.lastIdx)) ∧
      ¬(a.first ≤ 0 ∧ 0 ≤ a.lastIdx) ∧
      ((a.first ≤ r ∧ r ≤ a.lastIdx) ↔ r ≠ 0)) ∧
    (∃ r, binary_search S u = some r ∧ (r = -1 ∨ (0 ≤ r ∧ r < (S.length : Int))) ∧
      ((0 ≤ r ∧ r < (S.length : Int)) ↔ r ≠ -1)) := by
  constructor
  · unfold Search
    obtain ⟨r, hr, hcase⟩ := SearchLoopF_range a t hfst (a.elems.length + 1) a.first a.lastIdx
      le_rfl le_rfl (by unfold AdaArray.lastIdx; omega)
    refine ⟨r, hr, hcase, by omega, ?_, ?_⟩
    · rintro ⟨hr1, _⟩ rfl
      omega
    · intro hne
      rcases hcase with h | h
      · exact absurd h hne
      · exact h
  · unfold binary_search
    obtain ⟨r, hr, hcase⟩ := bsLoopF_total S u (S.length + 1) 0 ((S.length : Int) - 1)
      le_rfl le_rfl (by omega)
    refine ⟨r, hr, ?_, ?_, ?_⟩
    · rcases hcase with h | ⟨h1, h2, _⟩
      · exact Or.inl h
      · exact Or.inr ⟨h1, h2⟩
    · rintro ⟨hr1, _⟩ rfl
      omega
    · intro hne
      rcases hcase with h | ⟨h1, h2, _⟩
      · exact absurd h hne
      · exact ⟨h1, h2⟩

theorem sentinel_distinguishes_witness :
    (1 ≤ (⟨1, [5]⟩ : AdaArray).first ∧ 1 ≤ (⟨1, [5]⟩ : AdaArray).elems.length ∧
      Is_Sorted ⟨1, [5]⟩ ∧ is_sorted [5] = true) ∧
    (∃ r, Search ⟨1, [5]⟩ 5 = some r ∧
      (r = 0 ∨ ((⟨1, [5]⟩ : AdaArray).first ≤ r ∧ r ≤ (⟨1, [5]⟩ : AdaArray).lastIdx)) ∧
      ¬((⟨1, [5]⟩ : AdaArray).first ≤ 0 ∧ 0 ≤ (⟨1, [5]⟩ : AdaArray).lastIdx) ∧
      (((⟨1, [5]⟩ : AdaArray).first ≤ r ∧ r ≤ (⟨1, [5]⟩ : AdaArray).lastIdx) ↔ r ≠ 0)) :=
  ⟨⟨by decide, by decide, Or.inl (by decide), by decide⟩,
   (sentinel_distinguishes ⟨1, [5]⟩ [5] 5 3 (by decide) (by decide)
     (Or.inl (by decide)) (by decide)).1⟩
